import Mathlib

/-!
Shallow embedding of the RSS news-intelligence actors of this repository
(`apify-actors/News_Intelligence/...`), covering:

* `health-fitness-intelligence/src/tools.py`: `fetch_rss_feeds` — the
  round-robin multi-source collection loop (namespace `HF`);
* `health-fitness-intelligence/src/main.py`: `rss_fetcher` (dedup filter and
  recycling), `process_and_save_article` (downstream push and seen-marking),
  `should_continue`;
* `cybersecurity-ai-news-intelligence/src/tools.py`: its own `fetch_rss_feeds`
  (namespace `CY`);
* `gdelt-news/src/tools.py`: `fetch_summary_from_google` — the 403 retry loop
  (namespace `Gdelt`).

External collaborators (feedparser network fetches, DuckDuckGo/Google HTTP
responses, the LLM) are modelled as explicit inputs; machine effects
(`Actor.push_data`, `KeyValueStore.set_value`, `asyncio.sleep`) are modelled
as explicit event / delay traces in the order the code performs them.
-/

namespace NewsIntel

/-- One feedparser entry, after the `entry.get(...)` accesses performed by the
code: `title` and `link` default to `""`, `published` and `summary` to `None`.
An entry is wrapped in `Option`: `none` stands for an entry whose processing
raises (e.g. `RSSFeed(...)` link validation fails), which in the multi-source
loop is caught by `except Exception` and drops the feed, and in the
single-source loop propagates. -/
structure Entry where
  title : String
  link : String
  published : Option String
  summary : Option String
deriving DecidableEq, Repr

/-- `models.py` `RSSFeed` (pydantic): `HttpUrl` modelled as `String`; pydantic
equality compares all fields, matching derived `DecidableEq`. -/
structure RSSFeed where
  title : String
  link : String
  source : Option String
  published : Option String
  summary : Option String
deriving DecidableEq, Repr

/-- `RSSFeed(title=entry.get("title",""), link=entry.get("link",""),
source=source_title, published=entry.get("published"),
summary=entry.get("summary"))`. -/
def mkArticle (sourceTitle : String) (e : Entry) : RSSFeed :=
  { title := e.title, link := e.link, source := some sourceTitle,
    published := e.published, summary := e.summary }

/-- One element of `parsed_feeds`: the pair `(iter(parsed.entries),
source_title)`; the iterator is the list of not-yet-consumed entries. -/
structure Feed where
  entries : List (Option Entry)
  sourceTitle : String
deriving DecidableEq, Repr

/-- Outcome of `feedparser.parse(feed_url)` for one URL: either the call
raised (`failure`), or it returned a feed title and a list of entries. -/
inductive FetchResult where
  | failure : FetchResult
  | parsed (title : String) (entries : List (Option Entry)) : FetchResult
deriving DecidableEq, Repr

/-- The `for feed_url in urls` loop building `parsed_feeds`: a raising parse is
logged and skipped, a feed with no entries is logged and skipped, otherwise
`(iter(parsed.entries), source_title)` is appended. -/
def parseFeeds : List FetchResult → List Feed
  | [] => []
  | .failure :: rs => parseFeeds rs
  | .parsed t es :: rs =>
      if es.isEmpty then parseFeeds rs else ⟨es, t⟩ :: parseFeeds rs

/-- Total number of pending entries across the live feeds. -/
def totalEntries (feeds : List Feed) : Nat :=
  (feeds.map (fun f => f.entries.length)).sum

/-- Termination measure for the round-robin `while` loop: pending entries plus
live feed count (each iteration consumes an entry or removes a feed). -/
def rrMeasure (feeds : List Feed) : Nat :=
  totalEntries feeds + feeds.length

/-- Every pending entry of every feed is a non-raising entry. -/
def allSomeFeeds (fs : List Feed) : Prop :=
  ∀ f ∈ fs, ∀ oe ∈ f.entries, oe.isSome

instance : DecidablePred allSomeFeeds := fun _ =>
  List.decidableBAll _ _

/-- `⌈q / n⌉` on naturals. -/
def ceilDivNat (q n : Nat) : Nat := (q + n - 1) / n

/-- Number of collected articles attributed to the source labelled `t`. -/
def countSource (t : String) (l : List RSSFeed) : Nat :=
  l.countP (fun x => decide (x.source = some t))

end NewsIntel

namespace HF
open NewsIntel

/-- One pass of the inner `for i, (entry_iterator, source_title) in
enumerate(available_feeds)` loop of `fetch_rss_feeds` (health-fitness
`tools.py`): before each feed, `if len(articles) >= max_articles: break`
(remaining feeds are kept untouched); `next()` on an exhausted iterator hits
`StopIteration` and the feed is marked for removal; an entry whose processing
raises is caught by `except Exception` and the feed is marked for removal;
otherwise the article is appended and the advanced iterator kept. The
`feeds_to_remove` bookkeeping plus `pop(sorted, reverse=True)` is realised by
dropping the marked feeds in place, which yields the same surviving list. -/
def cycle (maxArticles : Nat) (articles : List RSSFeed) :
    List Feed → List RSSFeed × List Feed
  | [] => (articles, [])
  | f :: fs =>
    if maxArticles ≤ articles.length then (articles, f :: fs)
    else
      match f.entries with
      | [] => cycle maxArticles articles fs
      | none :: _ => cycle maxArticles articles fs
      | some e :: rest =>
          let r := cycle maxArticles (articles ++ [mkArticle f.sourceTitle e]) fs
          (r.1, ⟨rest, f.sourceTitle⟩ :: r.2)

/-- The `while len(articles) < max_articles and available_feeds:` loop, with
explicit fuel (each iteration strictly decreases `rrMeasure`, so any fuel
`≥ rrMeasure feeds` reaches the loop's exit condition; see
`rrLoop_stable`). -/
def rrLoop : Nat → Nat → List RSSFeed → List Feed → List RSSFeed
  | 0, _, articles, _ => articles
  | fuel + 1, maxArticles, articles, feeds =>
    if articles.length < maxArticles ∧ feeds ≠ [] then
      let r := cycle maxArticles articles feeds
      rrLoop fuel maxArticles r.1 r.2
    else articles

/-- The `elif len(parsed_feeds) == 1:` branch: `for i, entry in
enumerate(entry_iterator): if i >= max_articles: break; articles.append(...)`.
No `try/except` here, so a raising entry (`none`) propagates
(`Except.error`). -/
def singleCollect (sourceTitle : String) : Nat → List (Option Entry) →
    Except Unit (List RSSFeed)
  | _, [] => .ok []
  | 0, _ => .ok []
  | _ + 1, none :: _ => .error ()
  | n + 1, some e :: rest =>
      (singleCollect sourceTitle n rest).map (mkArticle sourceTitle e :: ·)

/-- The branch dispatch on `parsed_feeds` at the end of `fetch_rss_feeds`
(health-fitness `tools.py`): with more than one live feed and
`source == "all"` the round-robin `while` loop runs; with exactly one live
feed the single-feed `for` loop runs; otherwise `articles` stays `[]`. -/
def collectArticles (source : String) (parsed_feeds : List Feed)
    (max_articles : Nat) : Except Unit (List RSSFeed) :=
  if 1 < parsed_feeds.length ∧ source = "all" then
    .ok (rrLoop (rrMeasure parsed_feeds + 1) max_articles [] parsed_feeds)
  else
    match parsed_feeds with
    | [f] => singleCollect f.sourceTitle max_articles f.entries
    | _ => .ok []

/-- The article-collection part of `fetch_rss_feeds(source, custom_url,
max_articles)` (health-fitness `tools.py`), given the per-URL parse outcomes:
`parsed_feeds` is built by `parseFeeds`, then the collection branches run. -/
def fetch_rss_feeds (source : String) (results : List FetchResult)
    (max_articles : Nat) : Except Unit (List RSSFeed) :=
  collectArticles source (parseFeeds results) max_articles

/-- The article a feed contributes when its head entry is live (junk value
otherwise; only used under a liveness hypothesis). -/
def headArt (f : Feed) : RSSFeed :=
  match f.entries with
  | some e :: _ => mkArticle f.sourceTitle e
  | _ => ⟨"", "", none, none, none⟩

/-- A feed after its head entry has been consumed. -/
def feedTail (f : Feed) : Feed := ⟨f.entries.tail, f.sourceTitle⟩

/-- State of the feed queue after the first `k` feeds have each given up their
head entry. -/
def advance (k : Nat) (fs : List Feed) : List Feed :=
  (fs.take k).map feedTail ++ fs.drop k

/-- Every feed's head entry exists and is well-formed. -/
def headSome (fs : List Feed) : Prop :=
  ∀ f ∈ fs, ∃ e rest, f.entries = some e :: rest

/-- The feed queue after one full round: every feed has given up its head
entry. -/
def dropHeads (fs : List Feed) : List Feed := fs.map feedTail

/-- The output shape asserted by the round-robin description: round `j`
lists, in configuration order, each source's `j`-th entry; rounds
`0 … ⌈Q/N⌉ - 1` are concatenated and truncated to the quota `Q`. -/
def rrInterleaveSpec (fs : List Feed) (Q : Nat) : List RSSFeed :=
  ((List.range (ceilDivNat Q fs.length)).flatMap
    (fun j => (dropHeads^[j] fs).map headArt)).take Q

/-- The articles a feed can ever realize, in feed-native order (raising
entries contribute nothing). -/
def feedArticles (f : Feed) : List RSSFeed :=
  f.entries.filterMap (fun oe => oe.map (mkArticle f.sourceTitle))

/-! ### `main.py` of the health-fitness actor -/

/-- The dedup loop of `rss_fetcher`: keep the articles whose
`md5(str(article.link))` key is not present in the persistent
`processed_urls_store`. The hash is an abstract injective-in-practice function
`h`; the store is the list of keys holding the value `True`. -/
def new_articles (h : String → String) (store : List String)
    (all_articles_from_feed : List RSSFeed) : List RSSFeed :=
  all_articles_from_feed.filter (fun a => decide (h a.link ∉ store))

/-- The collection step of `rss_fetcher` (`main.py`) after
`fetch_rss_feeds` returned `all_articles_from_feed`: filter out seen links;
then `if len(new_articles) < config.maxArticles`, extend with
`[a for a in all_articles_from_feed if a not in new_articles][:needed]`
(pydantic `__eq__` compares all fields, matching `DecidableEq`). -/
def rss_fetcher (h : String → String) (store : List String) (maxArticles : Nat)
    (all_articles_from_feed : List RSSFeed) : List RSSFeed :=
  let new := new_articles h store all_articles_from_feed
  if new.length < maxArticles then
    let needed := maxArticles - new.length
    let remaining :=
      (all_articles_from_feed.filter (fun a => decide (a ∉ new))).take needed
    new ++ remaining
  else new

/-- `should_continue(state)`: `"continue" if processed_count < len(articles)
else "end"`. -/
def should_continue (articles : List RSSFeed) (processed_count : Nat) : String :=
  if processed_count < articles.length then "continue" else "end"

/-- Observable effects of `process_and_save_article`, in program order:
`Actor.push_data([dataset_record])` and
`processed_urls_store.set_value(key=url_key, value=True)`. -/
inductive Event where
  | pushRecord (source : Option String) (title : String) (url : String)
      (published : Option String) (summary : String)
  | markSeen (key : String)
deriving DecidableEq, Repr

/-- One step of `process_and_save_article` (`main.py`) on article
`art = articles[processed_count]`, returning the ordered effect trace and the
new `processed_count`. Inputs from external collaborators: `strictRes` /
`looseRes` are the strings returned by the two
`fetch_summary_from_duckduckgo` calls (`""` on failure), `stripHtml` is
`strip_html_tags`, `analysis` abstracts `analyze_article_summary`. The
summary cascade is: strict search, then loose search, then the cleaned RSS
summary when it has at least 50 non-surrounding-whitespace characters; if all
fail the article is skipped with no effect; otherwise the record is pushed and
only then is the link hash committed to the store. -/
def process_and_save_article (h : String → String)
    (strictRes looseRes : String) (stripHtml : String → String)
    (articles : List RSSFeed) (processed_count : Nat) :
    List Event × Nat :=
  if processed_count < articles.length then
    match articles.get? processed_count with
    | none => ([], processed_count)
    | some art =>
      let ai₁ := strictRes
      let ai₂ := if ai₁ = "" then looseRes else ai₁
      let ai₃ :=
        if ai₂ = "" then
          match art.summary with
          | some s => if 50 ≤ s.trim.length then stripHtml s else ""
          | none => ""
        else ai₂
      if ai₃ = "" then ([], processed_count + 1)
      else
        ([Event.pushRecord art.source art.title art.link art.published ai₃,
          Event.markSeen (h art.link)], processed_count + 1)
  else ([], processed_count)

end HF

namespace CY
open NewsIntel

/-! ### `cybersecurity-ai-news-intelligence/src/tools.py` -/

/-- One pass of the inner `for` loop of the cybersecurity actor's
`fetch_rss_feeds`, embedded independently from that file (same conventions as
`HF.cycle`). -/
def cycle (maxArticles : Nat) (articles : List RSSFeed) :
    List Feed → List RSSFeed × List Feed
  | [] => (articles, [])
  | f :: fs =>
    if maxArticles ≤ articles.length then (articles, f :: fs)
    else
      match f.entries with
      | [] => cycle maxArticles articles fs
      | none :: _ => cycle maxArticles articles fs
      | some e :: rest =>
          let r := cycle maxArticles (articles ++ [mkArticle f.sourceTitle e]) fs
          (r.1, ⟨rest, f.sourceTitle⟩ :: r.2)

/-- The cybersecurity actor's `while` collection loop, with fuel. -/
def rrLoop : Nat → Nat → List RSSFeed → List Feed → List RSSFeed
  | 0, _, articles, _ => articles
  | fuel + 1, maxArticles, articles, feeds =>
    if articles.length < maxArticles ∧ feeds ≠ [] then
      let r := cycle maxArticles articles feeds
      rrLoop fuel maxArticles r.1 r.2
    else articles

/-- The cybersecurity actor's single-feed branch. -/
def singleCollect (sourceTitle : String) : Nat → List (Option Entry) →
    Except Unit (List RSSFeed)
  | _, [] => .ok []
  | 0, _ => .ok []
  | _ + 1, none :: _ => .error ()
  | n + 1, some e :: rest =>
      (singleCollect sourceTitle n rest).map (mkArticle sourceTitle e :: ·)

/-- The cybersecurity actor's branch dispatch on `parsed_feeds`. -/
def collectArticles (source : String) (parsed_feeds : List Feed)
    (max_articles : Nat) : Except Unit (List RSSFeed) :=
  if 1 < parsed_feeds.length ∧ source = "all" then
    .ok (rrLoop (rrMeasure parsed_feeds + 1) max_articles [] parsed_feeds)
  else
    match parsed_feeds with
    | [f] => singleCollect f.sourceTitle max_articles f.entries
    | _ => .ok []

/-- The article-collection part of the cybersecurity actor's
`fetch_rss_feeds` given the per-URL parse outcomes (its `parsed_feeds` loop
is the same `parseFeeds` construction). -/
def fetch_rss_feeds (source : String) (results : List FetchResult)
    (max_articles : Nat) : Except Unit (List RSSFeed) :=
  collectArticles source (parseFeeds results) max_articles

end CY

namespace Gdelt

/-! ### `gdelt-news/src/tools.py`: `fetch_summary_from_google` -/

/-- Outcome of one `client.get(search_url, params=params)` attempt:
a response with a status code and the snippet list obtained from
`search_results.get("items", [])`, or a raised exception (network error,
JSON error, ...). -/
inductive HttpOutcome where
  | response (status : Nat) (snippets : List String)
  | exn
deriving DecidableEq, Repr

/-- `MAX_RETRIES = 3`. -/
def MAX_RETRIES : Nat := 3

/-- The `for attempt in range(MAX_RETRIES)` loop of
`fetch_summary_from_google`, fed the per-attempt outcomes. Returns the
function's result string and the ordered list of `asyncio.sleep` delays.
On status 403 with `attempt < MAX_RETRIES - 1` it sleeps `2 ** (attempt + 1)`
seconds and continues; on 403 at the last attempt it gives up with `""`;
`response.raise_for_status()` turns any other status `≥ 400` into an
`httpx.HTTPStatusError` that the handler converts to `""`; any raised
exception is also converted to `""`; an empty item list yields `""`;
otherwise the snippets are joined and summarised (`summarize` abstracts
`summarize_snippets_with_llm`). Exhausting the range falls through to the
final `return ""`. -/
def googleAttemptLoop (summarize : String → String) :
    Nat → List HttpOutcome → String × List Nat
  | _, [] => ("", [])
  | attempt, o :: rest =>
    if MAX_RETRIES ≤ attempt then ("", [])
    else
      match o with
      | .exn => ("", [])
      | .response status snippets =>
        if status = 403 then
          if attempt < MAX_RETRIES - 1 then
            let delay := 2 ^ (attempt + 1)
            let r := googleAttemptLoop summarize (attempt + 1) rest
            (r.1, delay :: r.2)
          else ("", [])
        else if 400 ≤ status then ("", [])
        else if snippets.isEmpty then ("", [])
        else
          (summarize (String.intercalate "\n" (snippets.map ("- " ++ ·))), [])

/-- `fetch_summary_from_google(query, is_test_mode)`: the test-mode branch
returns the canned test summary with no HTTP call; missing credentials abort
with `""`; otherwise the retry loop runs from attempt 0. `testSummary`
abstracts the `is_test_mode` return of `summarize_snippets_with_llm`. -/
def fetch_summary_from_google (summarize : String → String)
    (testSummary : String) (is_test_mode : Bool) (hasApiKey hasCseId : Bool)
    (outcomes : List HttpOutcome) : String × List Nat :=
  if is_test_mode then (testSummary, [])
  else if ¬ (hasApiKey ∧ hasCseId) then ("", [])
  else googleAttemptLoop summarize 0 outcomes

end Gdelt

/-! ## Basic lemmas about the round-robin loop -/

namespace NewsIntel

theorem totalEntries_nil : totalEntries [] = 0 := rfl

theorem totalEntries_cons (f : Feed) (fs : List Feed) :
    totalEntries (f :: fs) = f.entries.length + totalEntries fs := by
  simp [totalEntries]

theorem rrMeasure_nil : rrMeasure [] = 0 := rfl

theorem rrMeasure_cons (f : Feed) (fs : List Feed) :
    rrMeasure (f :: fs) = f.entries.length + 1 + rrMeasure fs := by
  simp [rrMeasure, totalEntries_cons]
  omega

end NewsIntel

namespace HF
open NewsIntel

theorem cycle_fst_le (Q : Nat) (fs : List Feed) :
    ∀ a : List RSSFeed, a.length ≤ Q → (cycle Q a fs).1.length ≤ Q := by
  induction fs with
  | nil => intro a h; simpa [cycle] using h
  | cons f fs ih =>
    intro a h
    by_cases hq : Q ≤ a.length
    · simpa [cycle, hq] using h
    · cases hent : f.entries with
      | nil => simpa [cycle, hq, hent] using ih a h
      | cons oe rest =>
        cases oe with
        | none => simpa [cycle, hq, hent] using ih a h
        | some e =>
          have hrec := ih (a ++ [mkArticle f.sourceTitle e]) (by simp; omega)
          simpa [cycle, hq, hent] using hrec

theorem cycle_measure_le (Q : Nat) (fs : List Feed) :
    ∀ a : List RSSFeed, rrMeasure (cycle Q a fs).2 ≤ rrMeasure fs := by
  induction fs with
  | nil => intro a; simp [cycle]
  | cons f fs ih =>
    intro a
    by_cases hq : Q ≤ a.length
    · simp [cycle, hq]
    · cases hent : f.entries with
      | nil =>
        have h1 := ih a
        have h2 : (cycle Q a (f :: fs)).2 = (cycle Q a fs).2 := by
          simp [cycle, hq, hent]
        rw [h2, rrMeasure_cons]
        omega
      | cons oe rest =>
        cases oe with
        | none =>
          have h1 := ih a
          have h2 : (cycle Q a (f :: fs)).2 = (cycle Q a fs).2 := by
            simp [cycle, hq, hent]
          rw [h2, rrMeasure_cons]
          omega
        | some e =>
          have h1 := ih (a ++ [mkArticle f.sourceTitle e])
          have h2 : (cycle Q a (f :: fs)).2
              = ⟨rest, f.sourceTitle⟩ ::
                (cycle Q (a ++ [mkArticle f.sourceTitle e]) fs).2 := by
            simp [cycle, hq, hent]
          rw [h2, rrMeasure_cons, rrMeasure_cons, hent]
          simp only [List.length_cons]
          omega

theorem cycle_measure_lt (Q : Nat) (f : Feed) (fs : List Feed)
    (a : List RSSFeed) (ha : a.length < Q) :
    rrMeasure (cycle Q a (f :: fs)).2 < rrMeasure (f :: fs) := by
  have hq : ¬ Q ≤ a.length := by omega
  cases hent : f.entries with
  | nil =>
    have h1 := cycle_measure_le Q fs a
    have h2 : (cycle Q a (f :: fs)).2 = (cycle Q a fs).2 := by
      simp [cycle, hq, hent]
    rw [h2, rrMeasure_cons]
    omega
  | cons oe rest =>
    cases oe with
    | none =>
      have h1 := cycle_measure_le Q fs a
      have h2 : (cycle Q a (f :: fs)).2 = (cycle Q a fs).2 := by
        simp [cycle, hq, hent]
      rw [h2, rrMeasure_cons]
      omega
    | some e =>
      have h1 := cycle_measure_le Q fs (a ++ [mkArticle f.sourceTitle e])
      have h2 : (cycle Q a (f :: fs)).2
          = ⟨rest, f.sourceTitle⟩ ::
            (cycle Q (a ++ [mkArticle f.sourceTitle e]) fs).2 := by
        simp [cycle, hq, hent]
      rw [h2, rrMeasure_cons, rrMeasure_cons, hent]
      simp only [List.length_cons]
      omega

theorem rrLoop_length_le :
    ∀ (fuel Q : Nat) (a : List RSSFeed) (fs : List Feed),
      a.length ≤ Q → (rrLoop fuel Q a fs).length ≤ Q := by
  intro fuel
  induction fuel with
  | zero => intro Q a fs h; simpa [rrLoop] using h
  | succ fuel ih =>
    intro Q a fs h
    by_cases hc : a.length < Q ∧ fs ≠ []
    · simp only [rrLoop, if_pos hc]
      exact ih Q _ _ (cycle_fst_le Q fs a h)
    · simpa [rrLoop, hc] using h

theorem rrLoop_succ_stable :
    ∀ (fuel Q : Nat) (a : List RSSFeed) (fs : List Feed),
      rrMeasure fs ≤ fuel → rrLoop (fuel + 1) Q a fs = rrLoop fuel Q a fs := by
  intro fuel
  induction fuel with
  | zero =>
    intro Q a fs h
    cases fs with
    | nil => simp [rrLoop]
    | cons f fs => rw [rrMeasure_cons] at h; omega
  | succ fuel ih =>
    intro Q a fs h
    by_cases hc : a.length < Q ∧ fs ≠ []
    · simp only [rrLoop, if_pos hc]
      apply ih
      cases fs with
      | nil => exact absurd rfl hc.2
      | cons f fs' =>
        have := cycle_measure_lt Q f fs' a hc.1
        omega
    · simp [rrLoop, hc]

theorem rrLoop_stable (fuel Q : Nat) (a : List RSSFeed) (fs : List Feed)
    (h : rrMeasure fs ≤ fuel) :
    rrLoop fuel Q a fs = rrLoop (rrMeasure fs) Q a fs := by
  obtain ⟨k, rfl⟩ : ∃ k, fuel = rrMeasure fs + k := ⟨fuel - rrMeasure fs, by omega⟩
  clear h
  induction k with
  | zero => rfl
  | succ k ih =>
    have : rrMeasure fs + (k + 1) = (rrMeasure fs + k) + 1 := by omega
    rw [this, rrLoop_succ_stable (rrMeasure fs + k) Q a fs (by omega), ih]

end HF

/-! ## Conservation and exact-quota filling (all entries well-formed) -/

namespace NewsIntel

theorem le_mul_ceilDivNat (q n : Nat) (hn : 0 < n) : q ≤ n * ceilDivNat q n := by
  have h1 := Nat.div_add_mod (q + n - 1) n
  have h2 := Nat.mod_lt (q + n - 1) hn
  unfold ceilDivNat
  omega

theorem ceilDivNat_one (q : Nat) : ceilDivNat q 1 = q := by
  simp [ceilDivNat]

theorem countSource_nil (t : String) : countSource t [] = 0 := rfl

theorem countSource_append (t : String) (l₁ l₂ : List RSSFeed) :
    countSource t (l₁ ++ l₂) = countSource t l₁ + countSource t l₂ := by
  simp [countSource, List.countP_append]

theorem countSource_le_length (t : String) (l : List RSSFeed) :
    countSource t l ≤ l.length :=
  List.countP_le_length _

end NewsIntel

namespace HF
open NewsIntel

theorem cycle_conserve (Q : Nat) (fs : List Feed) :
    ∀ a : List RSSFeed, allSomeFeeds fs →
      (cycle Q a fs).1.length + totalEntries (cycle Q a fs).2
        = a.length + totalEntries fs := by
  induction fs with
  | nil => intro a _; simp [cycle, totalEntries_nil]
  | cons f fs ih =>
    intro a hsome
    have hsome' : allSomeFeeds fs := fun g hg => hsome g (by simp [hg])
    by_cases hq : Q ≤ a.length
    · simp [cycle, hq]
    · cases hent : f.entries with
      | nil =>
        have h1 := ih a hsome'
        have h2 : cycle Q a (f :: fs) = cycle Q a fs := by
          simp [cycle, hq, hent]
        rw [h2, totalEntries_cons, hent]
        simpa using h1
      | cons oe rest =>
        cases oe with
        | none =>
          have := hsome f (by simp) none (by simp [hent])
          simp at this
        | some e =>
          have h1 := ih (a ++ [mkArticle f.sourceTitle e]) hsome'
          have h2 : cycle Q a (f :: fs)
              = ((cycle Q (a ++ [mkArticle f.sourceTitle e]) fs).1,
                 ⟨rest, f.sourceTitle⟩ ::
                   (cycle Q (a ++ [mkArticle f.sourceTitle e]) fs).2) := by
            simp [cycle, hq, hent]
          rw [h2]
          simp only [totalEntries_cons, hent] at *
          simp at h1 ⊢
          omega

theorem cycle_allSome (Q : Nat) (fs : List Feed) :
    ∀ a : List RSSFeed, allSomeFeeds fs → allSomeFeeds (cycle Q a fs).2 := by
  induction fs with
  | nil => intro a _; simp [cycle, allSomeFeeds]
  | cons f fs ih =>
    intro a hsome
    have hsome' : allSomeFeeds fs := fun g hg => hsome g (by simp [hg])
    by_cases hq : Q ≤ a.length
    · simpa [cycle, hq] using hsome
    · cases hent : f.entries with
      | nil =>
        have h2 : cycle Q a (f :: fs) = cycle Q a fs := by
          simp [cycle, hq, hent]
        rw [h2]; exact ih a hsome'
      | cons oe rest =>
        cases oe with
        | none =>
          have := hsome f (by simp) none (by simp [hent])
          simp at this
        | some e =>
          have h2 : (cycle Q a (f :: fs)).2
              = ⟨rest, f.sourceTitle⟩ ::
                (cycle Q (a ++ [mkArticle f.sourceTitle e]) fs).2 := by
            simp [cycle, hq, hent]
          rw [h2]
          intro g hg
          rcases List.mem_cons.1 hg with h | h
          · subst h
            intro oe hoe
            exact hsome f (by simp) oe (by simp [hent, hoe])
          · exact ih (a ++ [mkArticle f.sourceTitle e]) hsome' g h

theorem rrLoop_quota :
    ∀ (fuel Q : Nat) (a : List RSSFeed) (fs : List Feed),
      allSomeFeeds fs → Q ≤ a.length + totalEntries fs → a.length ≤ Q →
      rrMeasure fs ≤ fuel →
      (rrLoop fuel Q a fs).length = Q := by
  intro fuel
  induction fuel with
  | zero =>
    intro Q a fs _ hQ ha hm
    cases fs with
    | nil =>
      simp only [rrLoop]
      rw [totalEntries_nil] at hQ
      omega
    | cons f fs => rw [rrMeasure_cons] at hm; omega
  | succ fuel ih =>
    intro Q a fs hsome hQ ha hm
    by_cases hc : a.length < Q ∧ fs ≠ []
    · simp only [rrLoop, if_pos hc]
      apply ih
      · exact cycle_allSome Q fs a hsome
      · rw [cycle_conserve Q fs a hsome]; exact hQ
      · exact cycle_fst_le Q fs a ha
      · cases fs with
        | nil => exact absurd rfl hc.2
        | cons f fs' =>
          have := cycle_measure_lt Q f fs' a hc.1
          omega
    · simp only [rrLoop, if_neg hc]
      rcases not_and_or.1 hc with h | h
      · omega
      · have : fs = [] := by
          by_contra hne
          exact h hne
        subst this
        rw [totalEntries_nil] at hQ
        omega

/-! ## Round-robin fairness: at most one article per source per cycle -/

theorem advance_length (k : Nat) (fs : List Feed) :
    (advance k fs).length = fs.length := by
  simp [advance]
  omega

theorem advance_titles (k : Nat) (fs : List Feed) :
    (advance k fs).map Feed.sourceTitle = fs.map Feed.sourceTitle := by
  simp only [advance, List.map_append, List.map_map]
  have h1 : (Feed.sourceTitle ∘ feedTail) = Feed.sourceTitle := by
    funext f; simp [feedTail]
  rw [h1, ← List.map_append, List.take_append_drop]

theorem advance_mem (k : Nat) (fs : List Feed) (g : Feed)
    (hg : g ∈ advance k fs) : ∃ f ∈ fs, g = feedTail f ∨ g = f := by
  rcases List.mem_append.1 hg with h | h
  · rcases List.mem_map.1 h with ⟨f, hf, rfl⟩
    exact ⟨f, List.mem_of_mem_take hf, Or.inl rfl⟩
  · exact ⟨g, List.mem_of_mem_drop h, Or.inr rfl⟩

theorem cycle_full (Q : Nat) (fs : List Feed) :
    ∀ a : List RSSFeed, headSome fs →
      cycle Q a fs
        = (a ++ (fs.take (Q - a.length)).map headArt,
           advance (Q - a.length) fs) := by
  induction fs with
  | nil => intro a _; simp [cycle, advance]
  | cons f fs ih =>
    intro a hs
    obtain ⟨e, rest, hent⟩ := hs f (by simp)
    have hs' : headSome fs := fun g hg => hs g (by simp [hg])
    by_cases hq : Q ≤ a.length
    · have hz : Q - a.length = 0 := by omega
      simp [cycle, hq, hz, advance]
    · have hpos : Q - a.length = (Q - (a.length + 1)) + 1 := by omega
      have hrec := ih (a ++ [mkArticle f.sourceTitle e]) hs'
      simp only [List.length_append, List.length_cons, List.length_nil] at hrec
      have h2 : cycle Q a (f :: fs)
          = ((cycle Q (a ++ [mkArticle f.sourceTitle e]) fs).1,
             ⟨rest, f.sourceTitle⟩ ::
               (cycle Q (a ++ [mkArticle f.sourceTitle e]) fs).2) := by
        simp [cycle, hq, hent]
      have hha : headArt f = mkArticle f.sourceTitle e := by
        simp [headArt, hent]
      have hft : feedTail f = ⟨rest, f.sourceTitle⟩ := by
        simp [feedTail, hent]
      rw [h2, hrec, hpos]
      simp only [Prod.mk.injEq]
      refine ⟨?_, ?_⟩
      · rw [List.take_succ_cons, List.map_cons, hha, List.append_assoc]
        simp
      · simp only [advance, List.take_succ_cons, List.drop_succ_cons,
          List.map_cons, hft]
        simp

theorem countSource_cons (t : String) (x : RSSFeed) (l : List RSSFeed) :
    countSource t (x :: l)
      = countSource t l + (if x.source = some t then 1 else 0) := by
  simp [countSource, List.countP_cons]

theorem countSource_headArts_zero (t : String) (fs : List Feed)
    (h : ∀ g ∈ fs, g.sourceTitle ≠ t) :
    countSource t (fs.map headArt) = 0 := by
  induction fs with
  | nil => rfl
  | cons f fs ih =>
    have hf : f.sourceTitle ≠ t := h f (by simp)
    have hrest := ih (fun g hg => h g (by simp [hg]))
    rw [List.map_cons, countSource_cons, hrest]
    have hns : ¬ (headArt f).source = some t := by
      cases hent : f.entries with
      | nil => simp [headArt, hent]
      | cons oe rest =>
        cases oe with
        | none => simp [headArt, hent]
        | some e => simpa [headArt, hent, mkArticle] using hf
    simp [hns]

theorem countSource_headArts_le_one (t : String) (fs : List Feed)
    (h : (fs.map Feed.sourceTitle).Pairwise (· ≠ ·)) :
    countSource t (fs.map headArt) ≤ 1 := by
  induction fs with
  | nil => rw [List.map_nil, countSource_nil]; omega
  | cons f fs ih =>
    rw [List.map_cons, List.pairwise_cons] at h
    rw [List.map_cons, countSource_cons]
    by_cases hc : (headArt f).source = some t
    · have hft : f.sourceTitle = t := by
        cases hent : f.entries with
        | nil => simp [headArt, hent] at hc
        | cons oe rest =>
          cases oe with
          | none => simp [headArt, hent] at hc
          | some e => simpa [headArt, hent, mkArticle] using hc
      have hz : countSource t (fs.map headArt) = 0 := by
        apply countSource_headArts_zero
        intro g hg
        have hne := h.1 g.sourceTitle (List.mem_map_of_mem _ hg)
        rw [hft] at hne
        exact (Ne.symm hne)
      rw [hz]
      simp [hc]
    · have := ih h.2
      simp [hc]
      omega

/-- Fairness invariant of the round-robin loop: starting from a state reached
after `j` full rounds over `N` feeds (each having pairwise-distinct source
titles, well-formed entries, and enough entries left for the remaining
rounds), no source label ever accumulates more than `c` articles, where
`Q ≤ N * c`. -/
theorem rrLoop_fair :
    ∀ (fuel Q N c j : Nat) (t : String) (a : List RSSFeed) (fs : List Feed),
      Q ≤ N * c →
      fs.length = N →
      (∀ f ∈ fs, (∀ oe ∈ f.entries, oe.isSome) ∧ c - j ≤ f.entries.length) →
      a.length = min Q (N * j) →
      countSource t a ≤ j →
      (fs.map Feed.sourceTitle).Pairwise (· ≠ ·) →
      j ≤ c →
      countSource t (rrLoop fuel Q a fs) ≤ c := by
  intro fuel
  induction fuel with
  | zero =>
    intro Q N c j t a fs _ _ _ _ hcount _ hj
    simp only [rrLoop]
    omega
  | succ fuel ih =>
    intro Q N c j t a fs hQN hlen hfeeds ha hcount hpw hj
    by_cases hcnd : a.length < Q ∧ fs ≠ []
    · simp only [rrLoop, if_pos hcnd]
      have hN1 : 0 < N := by
        cases fs with
        | nil => exact absurd rfl hcnd.2
        | cons f fs' => simp at hlen; omega
      have hjN : N * j < Q := by
        have := hcnd.1
        omega
      have hjc : j < c := by
        have hlt : N * j < N * c := lt_of_lt_of_le hjN hQN
        exact Nat.lt_of_mul_lt_mul_left hlt
      have hhead : headSome fs := by
        intro f hf
        obtain ⟨hsome, hlenf⟩ := hfeeds f hf
        have hone : 1 ≤ f.entries.length := by omega
        cases hent : f.entries with
        | nil => rw [hent] at hone; simp at hone
        | cons oe rest =>
          have hoe := hsome oe (by simp [hent])
          cases oe with
          | none => simp at hoe
          | some e => exact ⟨e, rest, rfl⟩
      rw [cycle_full Q fs a hhead]
      apply ih Q N c (j + 1) t _ _ hQN
      · rw [advance_length]; exact hlen
      · intro f' hf'
        obtain ⟨f, hf, hor⟩ := advance_mem _ fs f' hf'
        obtain ⟨hsome, hlenf⟩ := hfeeds f hf
        rcases hor with rfl | rfl
        · refine ⟨fun oe hoe => hsome oe (List.mem_of_mem_tail hoe), ?_⟩
          simp only [feedTail, List.length_tail]
          omega
        · exact ⟨hsome, by omega⟩
      · simp only [List.length_append, List.length_map, List.length_take]
        rw [ha, hlen, Nat.mul_succ]
        omega
      · rw [countSource_append]
        have h1 : countSource t ((fs.take (Q - a.length)).map headArt) ≤ 1 := by
          apply countSource_headArts_le_one
          rw [List.map_take]
          exact List.Pairwise.sublist (List.take_sublist _ _) hpw
        omega
      · rw [advance_titles]; exact hpw
      · omega
    · simp only [rrLoop, if_neg hcnd]
      omega

/-- The single-feed branch collects `min max_articles |entries|` articles and
raises nothing when all entries are well-formed. -/
theorem singleCollect_ok (t : String) :
    ∀ (n : Nat) (es : List (Option Entry)), (∀ oe ∈ es, oe.isSome) →
      ∃ l, singleCollect t n es = .ok l ∧ l.length = min n es.length := by
  intro n es
  induction es generalizing n with
  | nil =>
    intro _
    refine ⟨[], ?_, by simp⟩
    cases n <;> rfl
  | cons oe rest ih =>
    intro hsome
    cases n with
    | zero => exact ⟨[], rfl, by simp⟩
    | succ n =>
      have hoe := hsome oe (by simp)
      cases oe with
      | none => simp at hoe
      | some e =>
        obtain ⟨l, hl, hlen⟩ := ih n (fun x hx => hsome x (by simp [hx]))
        refine ⟨mkArticle t e :: l, ?_, ?_⟩
        · simp [singleCollect, hl, Except.map]
        · simp [hlen]
          omega

end HF

namespace HF
open NewsIntel

theorem collectArticles_quota_fair (fs : List Feed) (Q : Nat)
    (hsome : allSomeFeeds fs) (hQ : Q ≤ totalEntries fs) :
    ∃ out, collectArticles "all" fs Q = .ok out ∧ out.length = Q ∧
      ((fs.map Feed.sourceTitle).Pairwise (· ≠ ·) →
       (∀ f ∈ fs, ceilDivNat Q fs.length ≤ f.entries.length) →
       ∀ t, countSource t out ≤ ceilDivNat Q fs.length + 1) := by
  by_cases hmulti : 1 < fs.length
  · refine ⟨rrLoop (rrMeasure fs + 1) Q [] fs, ?_, ?_, ?_⟩
    · simp [collectArticles, hmulti]
    · exact rrLoop_quota (rrMeasure fs + 1) Q [] fs hsome (by simpa using hQ)
        (by simp) (by omega)
    · intro hpw hlen t
      have hN : 0 < fs.length := by omega
      have hfair := rrLoop_fair (rrMeasure fs + 1) Q fs.length
        (ceilDivNat Q fs.length) 0 t [] fs
        (le_mul_ceilDivNat Q fs.length hN) rfl
        (fun f hf => ⟨hsome f hf, by simpa using hlen f hf⟩)
        (by simp) (by simp [countSource_nil]) hpw (by omega)
      omega
  · cases fs with
    | nil =>
      rw [totalEntries_nil] at hQ
      refine ⟨[], by simp [collectArticles], by simp only [List.length_nil]; omega, ?_⟩
      intro _ _ t
      simp [countSource_nil]
    | cons f rest =>
      cases rest with
      | nil =>
        obtain ⟨l, hok, hlen⟩ := singleCollect_ok f.sourceTitle Q f.entries
          (hsome f (by simp))
        rw [totalEntries_cons, totalEntries_nil] at hQ
        refine ⟨l, ?_, ?_, ?_⟩
        · simpa [collectArticles] using hok
        · omega
        · intro _ _ t
          have h1 := countSource_le_length t l
          simp only [List.length_singleton, ceilDivNat_one]
          omega
      | cons g rest2 => simp at hmulti

/-- **C1.** For every run of the multi-source collector (`fetch_rss_feeds`
with `source = "all"`) whose live sources hold only well-formed entries and
whose quota `Q` does not exceed the total number of available entries, the
collector returns exactly `Q` entries; and — round-robin fairness — when the
live sources carry pairwise-distinct titles and none exhausts early (each
holds at least `⌈Q/N⌉` entries, `N` the number of live sources), no single
source contributes more than `⌈Q/N⌉ + 1` entries to the output. -/
theorem C1_quota_and_round_robin_fairness (results : List FetchResult) (Q : Nat)
    (hsome : allSomeFeeds (parseFeeds results))
    (hQ : Q ≤ totalEntries (parseFeeds results)) :
    ∃ out, fetch_rss_feeds "all" results Q = .ok out ∧ out.length = Q ∧
      (((parseFeeds results).map Feed.sourceTitle).Pairwise (· ≠ ·) →
       (∀ f ∈ parseFeeds results,
          ceilDivNat Q (parseFeeds results).length ≤ f.entries.length) →
       ∀ t, countSource t out ≤ ceilDivNat Q (parseFeeds results).length + 1) :=
  collectArticles_quota_fair (parseFeeds results) Q hsome hQ

/-- Witness: a concrete two-source run with two entries per source and quota
3 satisfies the hypotheses of `C1_quota_and_round_robin_fairness`, which then
yields an output of exactly 3 articles with at most `⌈3/2⌉ + 1 = 3` per
source. -/
theorem C1_quota_and_round_robin_fairness_witness :
    allSomeFeeds (parseFeeds
      [FetchResult.parsed "s1"
         [some ⟨"a1", "l1", none, none⟩, some ⟨"a2", "l2", none, none⟩],
       FetchResult.parsed "s2"
         [some ⟨"b1", "m1", none, none⟩, some ⟨"b2", "m2", none, none⟩]]) ∧
    3 ≤ totalEntries (parseFeeds
      [FetchResult.parsed "s1"
         [some ⟨"a1", "l1", none, none⟩, some ⟨"a2", "l2", none, none⟩],
       FetchResult.parsed "s2"
         [some ⟨"b1", "m1", none, none⟩, some ⟨"b2", "m2", none, none⟩]]) ∧
    ∃ out, fetch_rss_feeds "all"
      [FetchResult.parsed "s1"
         [some ⟨"a1", "l1", none, none⟩, some ⟨"a2", "l2", none, none⟩],
       FetchResult.parsed "s2"
         [some ⟨"b1", "m1", none, none⟩, some ⟨"b2", "m2", none, none⟩]] 3
        = .ok out ∧ out.length = 3 ∧
      (((parseFeeds
          [FetchResult.parsed "s1"
             [some ⟨"a1", "l1", none, none⟩, some ⟨"a2", "l2", none, none⟩],
           FetchResult.parsed "s2"
             [some ⟨"b1", "m1", none, none⟩,
              some ⟨"b2", "m2", none, none⟩]]).map Feed.sourceTitle).Pairwise
          (· ≠ ·) →
       (∀ f ∈ parseFeeds
          [FetchResult.parsed "s1"
             [some ⟨"a1", "l1", none, none⟩, some ⟨"a2", "l2", none, none⟩],
           FetchResult.parsed "s2"
             [some ⟨"b1", "m1", none, none⟩, some ⟨"b2", "m2", none, none⟩]],
          ceilDivNat 3 2 ≤ f.entries.length) →
       ∀ t, countSource t out ≤ ceilDivNat 3 2 + 1) :=
  ⟨by decide, by decide,
    C1_quota_and_round_robin_fairness
      [FetchResult.parsed "s1"
         [some ⟨"a1", "l1", none, none⟩, some ⟨"a2", "l2", none, none⟩],
       FetchResult.parsed "s2"
         [some ⟨"b1", "m1", none, none⟩, some ⟨"b2", "m2", none, none⟩]] 3
      (by decide) (by decide)⟩

end HF

namespace HF
open NewsIntel

/-- **C6.** For every finite feed list and every quota the collection loop
terminates: once the fuel reaches the loop measure (pending entries plus live
feeds) the result is stable — running with any larger fuel changes nothing —
the collected output never exceeds the quota, and on each pass an exhausted
source, or one whose next entry raises, is dropped from the live set (it is
not requeued: the cycle continues on the remaining feeds alone). -/
theorem C6_collection_loop_terminates (Q fuel : Nat) (fs : List Feed)
    (h : rrMeasure fs ≤ fuel) :
    rrLoop fuel Q [] fs = rrLoop (rrMeasure fs) Q [] fs ∧
    (rrLoop fuel Q [] fs).length ≤ Q ∧
    (∀ (a : List RSSFeed) (t : String) (es : List (Option Entry)),
      a.length < Q →
      cycle Q a (⟨[], t⟩ :: fs) = cycle Q a fs ∧
      cycle Q a (⟨none :: es, t⟩ :: fs) = cycle Q a fs) := by
  refine ⟨rrLoop_stable fuel Q [] fs h,
    rrLoop_length_le fuel Q [] fs (by simp), ?_⟩
  intro a t es ha
  have hq : ¬ Q ≤ a.length := by omega
  exact ⟨by simp [cycle, hq], by simp [cycle, hq]⟩

/-- Witness: on a concrete two-feed queue of measure 5 (one feed immediately
erroring) and quota 2, fuel 7 exceeds the measure and
`C6_collection_loop_terminates` applies. -/
theorem C6_collection_loop_terminates_witness :
    rrMeasure [⟨[none], "bad"⟩, ⟨[some ⟨"a", "l", none, none⟩,
        some ⟨"b", "m", none, none⟩], "ok"⟩] ≤ 7 ∧
    (rrLoop 7 2 [] [⟨[none], "bad"⟩, ⟨[some ⟨"a", "l", none, none⟩,
        some ⟨"b", "m", none, none⟩], "ok"⟩]
      = rrLoop (rrMeasure [⟨[none], "bad"⟩, ⟨[some ⟨"a", "l", none, none⟩,
          some ⟨"b", "m", none, none⟩], "ok"⟩]) 2 []
        [⟨[none], "bad"⟩, ⟨[some ⟨"a", "l", none, none⟩,
          some ⟨"b", "m", none, none⟩], "ok"⟩] ∧
    (rrLoop 7 2 [] [⟨[none], "bad"⟩, ⟨[some ⟨"a", "l", none, none⟩,
        some ⟨"b", "m", none, none⟩], "ok"⟩]).length ≤ 2 ∧
    (∀ (a : List RSSFeed) (t : String) (es : List (Option Entry)),
      a.length < 2 →
      cycle 2 a (⟨[], t⟩ :: [⟨[none], "bad"⟩, ⟨[some ⟨"a", "l", none, none⟩,
          some ⟨"b", "m", none, none⟩], "ok"⟩])
        = cycle 2 a [⟨[none], "bad"⟩, ⟨[some ⟨"a", "l", none, none⟩,
            some ⟨"b", "m", none, none⟩], "ok"⟩] ∧
      cycle 2 a (⟨none :: es, t⟩ :: [⟨[none], "bad"⟩,
          ⟨[some ⟨"a", "l", none, none⟩, some ⟨"b", "m", none, none⟩], "ok"⟩])
        = cycle 2 a [⟨[none], "bad"⟩, ⟨[some ⟨"a", "l", none, none⟩,
            some ⟨"b", "m", none, none⟩], "ok"⟩])) :=
  ⟨by decide,
    C6_collection_loop_terminates 2 7
      [⟨[none], "bad"⟩, ⟨[some ⟨"a", "l", none, none⟩,
        some ⟨"b", "m", none, none⟩], "ok"⟩] (by decide)⟩

theorem parseFeeds_of_all_failed (results : List FetchResult)
    (h : ∀ r ∈ results, r = .failure ∨ ∃ t, r = .parsed t []) :
    parseFeeds results = [] := by
  induction results with
  | nil => rfl
  | cons r rs ih =>
    have hrest := ih (fun x hx => h x (by simp [hx]))
    rcases h r (by simp) with rfl | ⟨t, rfl⟩
    · simpa [parseFeeds] using hrest
    · simpa [parseFeeds] using hrest

/-- **C7.** If every configured source fails to fetch (each parse raises or
yields zero entries), the collector returns the empty sequence without
raising, the fetcher node's dedup/recycling step leaves it empty, and
`should_continue` immediately reports `"end"`: the pipeline terminates
cleanly. -/
theorem C7_all_sources_fail_clean_exit (source : String)
    (results : List FetchResult)
    (h : ∀ r ∈ results, r = .failure ∨ ∃ t, r = .parsed t [])
    (maxArticles : Nat) (hash : String → String) (store : List String) :
    fetch_rss_feeds source results maxArticles = .ok [] ∧
    rss_fetcher hash store maxArticles [] = [] ∧
    should_continue (rss_fetcher hash store maxArticles []) 0 = "end" := by
  have hempty := parseFeeds_of_all_failed results h
  have h1 : fetch_rss_feeds source results maxArticles = .ok [] := by
    simp [fetch_rss_feeds, hempty, collectArticles]
  have h2 : rss_fetcher hash store maxArticles [] = [] := by
    simp [rss_fetcher, new_articles]
  exact ⟨h1, h2, by rw [h2]; rfl⟩

/-- Witness: with one raising source and one empty source,
`C7_all_sources_fail_clean_exit` applies and the pipeline ends cleanly. -/
theorem C7_all_sources_fail_clean_exit_witness :
    (∀ r ∈ [FetchResult.failure, FetchResult.parsed "empty" []],
      r = .failure ∨ ∃ t, r = .parsed t []) ∧
    (fetch_rss_feeds "all" [FetchResult.failure, FetchResult.parsed "empty" []]
        10 = .ok [] ∧
     rss_fetcher (fun s => s) ["k1"] 10 [] = [] ∧
     should_continue (rss_fetcher (fun s => s) ["k1"] 10 []) 0 = "end") := by
  have hyp : ∀ r ∈ [FetchResult.failure, FetchResult.parsed "empty" []],
      r = FetchResult.failure ∨ ∃ t, r = FetchResult.parsed t [] := by
    intro r hr
    rcases List.mem_cons.1 hr with rfl | hr
    · exact Or.inl rfl
    · rcases List.mem_cons.1 hr with rfl | hr
      · exact Or.inr ⟨"empty", rfl⟩
      · simp at hr
  exact ⟨hyp,
    C7_all_sources_fail_clean_exit "all"
      [FetchResult.failure, FetchResult.parsed "empty" []] hyp 10
      (fun s => s) ["k1"]⟩

end HF

namespace HF
open NewsIntel

/-- **C8.** Every entry whose link hash was marked seen in a previous run is
excluded by the deduplication filter from the new-articles output of a
subsequent run (before the recycling backfill). -/
theorem C8_seen_links_filtered (h : String → String) (store : List String)
    (l : List RSSFeed) (a : RSSFeed) (hseen : h a.link ∈ store) :
    a ∉ new_articles h store l := by
  intro hmem
  have := (List.mem_filter.1 hmem).2
  simp at this
  exact this hseen

/-- Witness: a concrete article whose hashed link sits in the store is not
among the new articles of the next run. -/
theorem C8_seen_links_filtered_witness :
    (fun s => s) (RSSFeed.link ⟨"t1", "l1", some "s", none, none⟩) ∈
      ["l1", "l9"] ∧
    (⟨"t1", "l1", some "s", none, none⟩ : RSSFeed) ∉
      new_articles (fun s => s) ["l1", "l9"]
        [⟨"t1", "l1", some "s", none, none⟩,
         ⟨"t2", "l2", some "s", none, none⟩] :=
  ⟨by decide,
    C8_seen_links_filtered (fun s => s) ["l1", "l9"]
      [⟨"t1", "l1", some "s", none, none⟩, ⟨"t2", "l2", some "s", none, none⟩]
      ⟨"t1", "l1", some "s", none, none⟩ (by decide)⟩

/-- **C4.** The effect trace of `process_and_save_article` is either empty —
in particular whenever no summary could be produced and the article is
skipped, the persistent seen-link store is left untouched — or it is exactly
a push of the article's record followed by the commit of its link hash: the
hash is committed only after the successful downstream push, never before. -/
theorem C4_mark_seen_only_after_push (h : String → String)
    (strictRes looseRes : String) (stripHtml : String → String)
    (articles : List RSSFeed) (pc : Nat) :
    ((process_and_save_article h strictRes looseRes stripHtml articles pc).1
        = [] ∨
     ∃ art s, articles.get? pc = some art ∧
      (process_and_save_article h strictRes looseRes stripHtml
          articles pc).1
        = [Event.pushRecord art.source art.title art.link art.published s,
           Event.markSeen (h art.link)]) ∧
    (∀ art, pc < articles.length → articles.get? pc = some art →
      strictRes = "" → looseRes = "" → art.summary = none →
      process_and_save_article h strictRes looseRes stripHtml articles pc
        = ([], pc + 1)) := by
  constructor
  · unfold process_and_save_article
    split
    · split
      · exact Or.inl rfl
      · next art heq =>
        dsimp only
        repeat' split
        all_goals first
          | exact Or.inl rfl
          | exact Or.inr ⟨art, _, heq, rfl⟩
    · exact Or.inl rfl
  · intro art hpc hget hstrict hloose hsum
    subst hstrict; subst hloose
    unfold process_and_save_article
    rw [if_pos hpc]
    rw [List.get?_eq_getElem?] at hget
    simp [hget, hsum]

end HF

/-- **C9.** The Google search call retries only on HTTP 403: three consecutive
403 responses use exactly the bounded attempt count of 3 (any further
prepared outcomes are never consulted) with exponential delays 2 s then 4 s
between attempts, after which it gives up with the empty string; any non-403
response — success or failure — and any raised exception finishes on that
attempt with no delay, i.e. nothing else is retried. -/
theorem C9_google_403_retry_policy (summarize : String → String)
    (rest : List Gdelt.HttpOutcome) (i₁ i₂ i₃ : List String)
    (status : Nat) (items : List String) (hs : status ≠ 403) :
    Gdelt.googleAttemptLoop summarize 0
        (.response 403 i₁ :: .response 403 i₂ :: .response 403 i₃ :: rest)
      = ("", [2, 4]) ∧
    (∃ res, Gdelt.googleAttemptLoop summarize 0
        (.response status items :: rest) = (res, [])) ∧
    Gdelt.googleAttemptLoop summarize 0 (.exn :: rest) = ("", []) := by
  refine ⟨rfl, ?_, rfl⟩
  simp only [Gdelt.googleAttemptLoop, Gdelt.MAX_RETRIES]
  rw [if_neg hs]
  by_cases h4 : 400 ≤ status
  · rw [if_pos h4]; simp
  · rw [if_neg h4]
    by_cases hempty : items.isEmpty
    · rw [if_pos hempty]; simp
    · rw [if_neg hempty]; simp

/-- Witness: a 404 response is not retried and yields the empty result at
once. -/
theorem C9_google_403_retry_policy_witness :
    (404 : Nat) ≠ 403 ∧
    (Gdelt.googleAttemptLoop (fun s => s) 0
        [.response 403 [], .response 403 [], .response 403 []] = ("", [2, 4]) ∧
     (∃ res, Gdelt.googleAttemptLoop (fun s => s) 0
        [.response 404 ["snippet"]] = (res, [])) ∧
     Gdelt.googleAttemptLoop (fun s => s) 0 [.exn] = ("", [])) :=
  ⟨by decide,
    C9_google_403_retry_policy (fun s => s) [] [] [] [] 404 ["snippet"]
      (by decide)⟩

namespace HF
open NewsIntel

theorem length_filter_add_length_filter_not {α : Type} (p : α → Bool)
    (l : List α) :
    (l.filter p).length + (l.filter (fun a => !(p a))).length = l.length := by
  induction l with
  | nil => rfl
  | cons x l ih =>
    by_cases h : p x <;> simp [List.filter_cons, h] <;> omega

/-- The recycling candidate pool `[a for a in all if a not in new_articles]`
is exactly the previously-seen part of the fetched list: an element equal to
a new article is itself unseen, and a seen element never enters
`new_articles`. -/
theorem recycling_pool_eq (h : String → String) (store : List String)
    (l : List RSSFeed) :
    l.filter (fun a => decide (a ∉ new_articles h store l))
      = l.filter (fun a => !(decide (h a.link ∉ store))) := by
  apply List.filter_congr
  intro a ha
  by_cases hp : h a.link ∉ store
  · have hmem : a ∈ new_articles h store l :=
      List.mem_filter.2 ⟨ha, by simpa using hp⟩
    simp [hmem, hp]
  · have hmem : a ∉ new_articles h store l := by
      intro hmem
      exact hp (by simpa using (List.mem_filter.1 hmem).2)
    simp [hmem, hp]

/-- **C2 (counterexample).** In the spec's own scenario — quota 10, 8 fetched
entries of which only 4 are new — the output holds 8 articles, not 10: the
backfill draws only from fetched entries not already selected, so it cannot
reach the quota. -/
theorem C2_backfill_scenario_counterexample :
    (new_articles (fun s => s) ["l4", "l5", "l6", "l7"]
        [⟨"t0", "l0", some "s", none, none⟩, ⟨"t1", "l1", some "s", none, none⟩,
         ⟨"t2", "l2", some "s", none, none⟩, ⟨"t3", "l3", some "s", none, none⟩,
         ⟨"t4", "l4", some "s", none, none⟩, ⟨"t5", "l5", some "s", none, none⟩,
         ⟨"t6", "l6", some "s", none, none⟩,
         ⟨"t7", "l7", some "s", none, none⟩]).length = 4 ∧
    (rss_fetcher (fun s => s) ["l4", "l5", "l6", "l7"] 10
        [⟨"t0", "l0", some "s", none, none⟩, ⟨"t1", "l1", some "s", none, none⟩,
         ⟨"t2", "l2", some "s", none, none⟩, ⟨"t3", "l3", some "s", none, none⟩,
         ⟨"t4", "l4", some "s", none, none⟩, ⟨"t5", "l5", some "s", none, none⟩,
         ⟨"t6", "l6", some "s", none, none⟩,
         ⟨"t7", "l7", some "s", none, none⟩]).length = 8 ∧
    (rss_fetcher (fun s => s) ["l4", "l5", "l6", "l7"] 10
        [⟨"t0", "l0", some "s", none, none⟩, ⟨"t1", "l1", some "s", none, none⟩,
         ⟨"t2", "l2", some "s", none, none⟩, ⟨"t3", "l3", some "s", none, none⟩,
         ⟨"t4", "l4", some "s", none, none⟩, ⟨"t5", "l5", some "s", none, none⟩,
         ⟨"t6", "l6", some "s", none, none⟩,
         ⟨"t7", "l7", some "s", none, none⟩]).length ≠ 10 := by
  refine ⟨rfl, rfl, ?_⟩
  decide

/-- **C2 (amended).** When fewer new articles than the quota are found, the
recycling step backfills from the fetched entries not already selected, so
the output reaches `min quota |fetched|` — exactly the quota only when the
fetched pool is large enough; in the spec's scenario (quota 10, 4 new among 8
fetched) the output is the 4 new entries plus the 4 previously-seen ones,
total 8. -/
theorem C2_amended_backfill_to_pool_size (h : String → String)
    (store : List String) (Q : Nat) (l : List RSSFeed)
    (hlt : (new_articles h store l).length < Q) :
    (rss_fetcher h store Q l).length = min Q l.length := by
  have hcand := recycling_pool_eq h store l
  have hsplit := length_filter_add_length_filter_not
    (fun a => decide (h a.link ∉ store)) l
  unfold rss_fetcher
  rw [if_pos hlt]
  simp only [List.length_append, List.length_take]
  rw [hcand]
  have hnew : new_articles h store l
      = l.filter (fun a => decide (h a.link ∉ store)) := rfl
  rw [hnew] at hlt ⊢
  omega

/-- Witness: `C2_amended_backfill_to_pool_size` applied to the spec scenario
(quota 10, 8 fetched, 4 new) gives an output of `min 10 8 = 8` articles. -/
theorem C2_amended_backfill_to_pool_size_witness :
    (new_articles (fun s => s) ["l4", "l5", "l6", "l7"]
        [⟨"t0", "l0", some "s", none, none⟩, ⟨"t1", "l1", some "s", none, none⟩,
         ⟨"t2", "l2", some "s", none, none⟩, ⟨"t3", "l3", some "s", none, none⟩,
         ⟨"t4", "l4", some "s", none, none⟩, ⟨"t5", "l5", some "s", none, none⟩,
         ⟨"t6", "l6", some "s", none, none⟩,
         ⟨"t7", "l7", some "s", none, none⟩]).length < 10 ∧
    (rss_fetcher (fun s => s) ["l4", "l5", "l6", "l7"] 10
        [⟨"t0", "l0", some "s", none, none⟩, ⟨"t1", "l1", some "s", none, none⟩,
         ⟨"t2", "l2", some "s", none, none⟩, ⟨"t3", "l3", some "s", none, none⟩,
         ⟨"t4", "l4", some "s", none, none⟩, ⟨"t5", "l5", some "s", none, none⟩,
         ⟨"t6", "l6", some "s", none, none⟩,
         ⟨"t7", "l7", some "s", none, none⟩]).length
      = min 10
          ([⟨"t0", "l0", some "s", none, none⟩,
            ⟨"t1", "l1", some "s", none, none⟩,
            ⟨"t2", "l2", some "s", none, none⟩,
            ⟨"t3", "l3", some "s", none, none⟩,
            ⟨"t4", "l4", some "s", none, none⟩,
            ⟨"t5", "l5", some "s", none, none⟩,
            ⟨"t6", "l6", some "s", none, none⟩,
            ⟨"t7", "l7", some "s", none, none⟩] : List RSSFeed).length :=
  ⟨by decide,
    C2_amended_backfill_to_pool_size (fun s => s) ["l4", "l5", "l6", "l7"] 10
      [⟨"t0", "l0", some "s", none, none⟩, ⟨"t1", "l1", some "s", none, none⟩,
       ⟨"t2", "l2", some "s", none, none⟩, ⟨"t3", "l3", some "s", none, none⟩,
       ⟨"t4", "l4", some "s", none, none⟩, ⟨"t5", "l5", some "s", none, none⟩,
       ⟨"t6", "l6", some "s", none, none⟩, ⟨"t7", "l7", some "s", none, none⟩]
      (by decide)⟩

/-- **C3 (counterexample).** Two different sources yielding entries with the
same link defeat the claimed invariant: with an empty seen-store and quota 2,
both entries (same link `"x"`, different sources) pass the deduplication
filter, recycling is not triggered (2 new articles = quota), and the emitted
run contains the link `"x"` twice. -/
theorem C3_same_link_two_sources_counterexample :
    fetch_rss_feeds "all"
      [FetchResult.parsed "s1" [some ⟨"t1", "x", none, none⟩],
       FetchResult.parsed "s2" [some ⟨"t2", "x", none, none⟩]] 2
      = .ok [⟨"t1", "x", some "s1", none, none⟩,
             ⟨"t2", "x", some "s2", none, none⟩] ∧
    rss_fetcher (fun s => s) [] 2
      [⟨"t1", "x", some "s1", none, none⟩, ⟨"t2", "x", some "s2", none, none⟩]
      = [⟨"t1", "x", some "s1", none, none⟩,
         ⟨"t2", "x", some "s2", none, none⟩] ∧
    (new_articles (fun s => s) []
      [⟨"t1", "x", some "s1", none, none⟩,
       ⟨"t2", "x", some "s2", none, none⟩]).length = 2 ∧
    (⟨"t1", "x", some "s1", none, none⟩ : RSSFeed).link
      = (⟨"t2", "x", some "s2", none, none⟩ : RSSFeed).link ∧
    (⟨"t1", "x", some "s1", none, none⟩ : RSSFeed)
      ≠ (⟨"t2", "x", some "s2", none, none⟩ : RSSFeed) :=
  ⟨rfl, rfl, rfl, rfl, by decide⟩

/-- **C3 (amended).** The run deduplicates only against links seen in earlier
runs, not within itself, so two same-link entries from different sources may
both be emitted; but whenever the fetched entries of the run carry
pairwise-distinct links, no link appears twice in the emitted output —
whether or not the recycling policy is triggered. -/
theorem C3_amended_distinct_links_preserved (h : String → String)
    (store : List String) (Q : Nat) (l : List RSSFeed)
    (hdist : l.Pairwise (fun a b => a.link ≠ b.link)) :
    (rss_fetcher h store Q l).Pairwise (fun a b => a.link ≠ b.link) := by
  have hsym : Symmetric (fun a b : RSSFeed => a.link ≠ b.link) :=
    fun a b hab => hab.symm
  have hnew : (new_articles h store l).Pairwise (fun a b => a.link ≠ b.link) :=
    hdist.sublist (List.filter_sublist l)
  unfold rss_fetcher
  by_cases hlt : (new_articles h store l).length < Q
  · rw [if_pos hlt]
    rw [List.pairwise_append]
    refine ⟨hnew, ?_, ?_⟩
    · exact hdist.sublist
        ((List.take_sublist _ _).trans (List.filter_sublist l))
    · intro a ha b hb
      have hbl : b ∈ l.filter (fun x => decide (x ∉ new_articles h store l)) :=
        List.mem_of_mem_take hb
      have hbmem := List.mem_filter.1 hbl
      have hbnot : b ∉ new_articles h store l := by simpa using hbmem.2
      have hal : a ∈ l := (List.mem_filter.1 ha).1
      have hneq : a ≠ b := fun he => hbnot (he ▸ ha)
      exact hdist.forall hsym hal hbmem.1 hneq
  · rw [if_neg hlt]
    exact hnew

/-- Witness: for a run fetching two distinct-link articles with quota 3
(recycling triggered), the output repeats no link. -/
theorem C3_amended_distinct_links_preserved_witness :
    ([⟨"t1", "la", some "s", none, none⟩,
      ⟨"t2", "lb", some "s", none, none⟩] : List RSSFeed).Pairwise
      (fun a b => a.link ≠ b.link) ∧
    (rss_fetcher (fun s => s) ["la"] 3
      [⟨"t1", "la", some "s", none, none⟩,
       ⟨"t2", "lb", some "s", none, none⟩]).Pairwise
      (fun a b => a.link ≠ b.link) :=
  ⟨by decide,
    C3_amended_distinct_links_preserved (fun s => s) ["la"] 3
      [⟨"t1", "la", some "s", none, none⟩, ⟨"t2", "lb", some "s", none, none⟩]
      (by decide)⟩

end HF

namespace NewsIntel

theorem cycle_hf_cy_eq (Q : Nat) (fs : List Feed) :
    ∀ a : List RSSFeed, CY.cycle Q a fs = HF.cycle Q a fs := by
  induction fs with
  | nil => intro a; rfl
  | cons f fs ih =>
    intro a
    by_cases hq : Q ≤ a.length
    · simp [CY.cycle, HF.cycle, hq]
    · cases hent : f.entries with
      | nil => simp [CY.cycle, HF.cycle, hq, hent, ih a]
      | cons oe rest =>
        cases oe with
        | none => simp [CY.cycle, HF.cycle, hq, hent, ih a]
        | some e => simp [CY.cycle, HF.cycle, hq, hent, ih]

theorem rrLoop_hf_cy_eq :
    ∀ (fuel Q : Nat) (a : List RSSFeed) (fs : List Feed),
      CY.rrLoop fuel Q a fs = HF.rrLoop fuel Q a fs := by
  intro fuel
  induction fuel with
  | zero => intro Q a fs; rfl
  | succ fuel ih =>
    intro Q a fs
    by_cases hc : a.length < Q ∧ fs ≠ []
    · simp only [CY.rrLoop, HF.rrLoop, if_pos hc, cycle_hf_cy_eq]
      exact ih Q _ _
    · simp only [CY.rrLoop, HF.rrLoop, if_neg hc]

theorem singleCollect_hf_cy_eq (t : String) :
    ∀ (n : Nat) (es : List (Option Entry)),
      CY.singleCollect t n es = HF.singleCollect t n es := by
  intro n es
  induction es generalizing n with
  | nil => cases n <;> rfl
  | cons oe rest ih =>
    cases n with
    | zero => rfl
    | succ n =>
      cases oe with
      | none => rfl
      | some e =>
        simp [CY.singleCollect, HF.singleCollect, ih n]

/-- **C10.** The multi-source collection loops reimplemented in the
health-fitness and cybersecurity actors are equivalent: on the same parse
outcomes, the same source selector and the same `max_articles`, the two
`fetch_rss_feeds` functions return element-for-element identical article
sequences (and identical raising behaviour). -/
theorem C10_fetch_loops_equivalent (source : String)
    (results : List FetchResult) (max_articles : Nat) :
    CY.fetch_rss_feeds source results max_articles
      = HF.fetch_rss_feeds source results max_articles := by
  unfold CY.fetch_rss_feeds HF.fetch_rss_feeds
  unfold CY.collectArticles HF.collectArticles
  by_cases hc : 1 < (parseFeeds results).length ∧ source = "all"
  · simp only [if_pos hc, rrLoop_hf_cy_eq]
  · simp only [if_neg hc]
    cases hfs : parseFeeds results with
    | nil => rfl
    | cons f rest =>
      cases rest with
      | nil => exact singleCollect_hf_cy_eq f.sourceTitle max_articles f.entries
      | cons g rest2 => rfl

end NewsIntel

/-- Witness: with both searches failing and no RSS summary, processing a
concrete article produces no effect — nothing is pushed and the seen-link
store is untouched — and the counter advances past the skipped article. -/
theorem C4_mark_seen_only_after_push_witness :
    HF.process_and_save_article (fun s => s) "" "" (fun s => s)
      [⟨"t", "l", some "s", none, none⟩] 0 = ([], 1) :=
  (HF.C4_mark_seen_only_after_push (fun s => s) "" "" (fun s => s)
      [⟨"t", "l", some "s", none, none⟩] 0).2
    ⟨"t", "l", some "s", none, none⟩ (by decide) rfl rfl rfl rfl

/-! ## Round-robin visitation order: exact interleaving and feed-native
order -/

namespace HF
open NewsIntel

theorem rrLoop_of_ge (fuel Q : Nat) (a : List RSSFeed) (fs : List Feed)
    (h : Q ≤ a.length) : rrLoop fuel Q a fs = a := by
  cases fuel with
  | zero => rfl
  | succ fuel =>
    have hc : ¬ (a.length < Q ∧ fs ≠ []) := fun hc => absurd hc.1 (by omega)
    simp [rrLoop, hc]

theorem rrMeasure_pos (fs : List Feed) (h : fs ≠ []) : 1 ≤ rrMeasure fs := by
  cases fs with
  | nil => exact absurd rfl h
  | cons f fs0 => rw [rrMeasure_cons]; omega

theorem cycle_measure_lt' (Q : Nat) (a : List RSSFeed) (fs : List Feed)
    (ha : a.length < Q) (hne : fs ≠ []) :
    rrMeasure (cycle Q a fs).2 < rrMeasure fs := by
  cases fs with
  | nil => exact absurd rfl hne
  | cons f fs0 => exact cycle_measure_lt Q f fs0 a ha

theorem advance_of_length_le (k : Nat) (fs : List Feed) (h : fs.length ≤ k) :
    advance k fs = dropHeads fs := by
  simp [advance, dropHeads, List.take_of_length_le h, List.drop_eq_nil_of_le h]

theorem dropHeads_allSome (fs : List Feed) (h : allSomeFeeds fs) :
    allSomeFeeds (dropHeads fs) := by
  intro g hg
  rcases List.mem_map.1 hg with ⟨f, hf, rfl⟩
  intro oe hoe
  exact h f hf oe (List.mem_of_mem_tail hoe)

theorem dropHeads_length (fs : List Feed) :
    (dropHeads fs).length = fs.length := by simp [dropHeads]

theorem flatMap_map_succ {α : Type} (g : Nat → List α) (l : List Nat) :
    (l.map Nat.succ).flatMap g = l.flatMap (fun j => g (j + 1)) := by
  induction l with
  | nil => rfl
  | cons x l ih => simp [List.flatMap_cons, ih]

/-- Exact shape of the round-robin loop while no feed exhausts: starting with
`m` guaranteed rounds of entries in every feed, the loop appends, round after
round, each feed's next entry in configuration order, truncated at the
quota. -/
theorem rrLoop_interleave :
    ∀ (m fuel Q : Nat) (a : List RSSFeed) (fs : List Feed),
      allSomeFeeds fs → (∀ f ∈ fs, m ≤ f.entries.length) → 0 < fs.length →
      Q ≤ a.length + m * fs.length → a.length ≤ Q → rrMeasure fs ≤ fuel →
      rrLoop fuel Q a fs
        = a ++ ((List.range m).flatMap
            (fun j => (dropHeads^[j] fs).map headArt)).take (Q - a.length) := by
  intro m
  induction m with
  | zero =>
    intro fuel Q a fs _ _ _ hQ ha _
    rw [rrLoop_of_ge fuel Q a fs (by omega)]
    have h0 : Q - a.length = 0 := by omega
    simp [h0]
  | succ m ih =>
    intro fuel Q a fs hsome hlen hN hQ ha hfuel
    by_cases haQ : Q ≤ a.length
    · rw [rrLoop_of_ge fuel Q a fs haQ]
      have h0 : Q - a.length = 0 := by omega
      simp [h0]
    · have hlt : a.length < Q := by omega
      have hne : fs ≠ [] := by
        intro h
        rw [h] at hN
        simp at hN
      obtain ⟨fuel', rfl⟩ : ∃ fuel', fuel = fuel' + 1 := by
        have := rrMeasure_pos fs hne
        exact ⟨fuel - 1, by omega⟩
      have hhead : headSome fs := by
        intro f hf
        have h1 := hlen f hf
        have h2 := hsome f hf
        cases hent : f.entries with
        | nil => rw [hent] at h1; simp at h1
        | cons oe rest =>
          have hoe := h2 oe (by simp [hent])
          cases oe with
          | none => simp at hoe
          | some e => exact ⟨e, rest, rfl⟩
      have hdec := cycle_measure_lt' Q a fs hlt hne
      have hcf := cycle_full Q fs a hhead
      simp only [rrLoop, if_pos (show a.length < Q ∧ fs ≠ [] from ⟨hlt, hne⟩)]
      rw [hcf]
      rw [hcf] at hdec
      simp only at hdec ⊢
      by_cases hfull : fs.length ≤ Q - a.length
      · rw [List.take_of_length_le hfull, advance_of_length_le _ _ hfull]
        rw [advance_of_length_le _ _ hfull] at hdec
        have hsome' := dropHeads_allSome fs hsome
        have hlen' : ∀ g ∈ dropHeads fs, m ≤ g.entries.length := by
          intro g hg
          rcases List.mem_map.1 hg with ⟨f, hf, rfl⟩
          have := hlen f hf
          simp only [feedTail, List.length_tail]
          omega
        have hN' : 0 < (dropHeads fs).length := by rw [dropHeads_length]; omega
        have hQ' : Q ≤ (a ++ fs.map headArt).length
            + m * (dropHeads fs).length := by
          simp only [List.length_append, List.length_map, dropHeads_length]
          rw [Nat.succ_mul] at hQ
          omega
        have ha' : (a ++ fs.map headArt).length ≤ Q := by
          simp only [List.length_append, List.length_map]
          omega
        have hm' : rrMeasure (dropHeads fs) ≤ fuel' := by omega
        rw [ih fuel' Q (a ++ fs.map headArt) (dropHeads fs) hsome' hlen' hN'
          hQ' ha' hm']
        rw [List.range_succ_eq_map, List.flatMap_cons, flatMap_map_succ]
        simp only [Function.iterate_zero, id_eq, Function.iterate_succ_apply]
        rw [List.take_append_eq_append_take]
        rw [List.take_of_length_le (l := fs.map headArt)
          (by simp only [List.length_map]; omega)]
        simp only [List.length_append, List.length_map, List.append_assoc]
        have harg : Q - (a.length + fs.length)
            = Q - a.length - fs.length := by omega
        rw [harg]
      · have hr : Q - a.length < fs.length := by omega
        rw [rrLoop_of_ge _ _ _ _ (by
          simp only [List.length_append, List.length_map, List.length_take]
          omega)]
        rw [List.range_succ_eq_map, List.flatMap_cons]
        simp only [Function.iterate_zero, id_eq]
        rw [List.take_append_eq_append_take]
        have h0 : Q - a.length - (fs.map headArt).length = 0 := by
          simp only [List.length_map]
          omega
        rw [h0]
        simp only [List.take_zero, List.append_nil, Function.iterate_zero,
          id_eq]
        rw [← List.map_take]

end HF

namespace HF
open NewsIntel

theorem cycle_titles_sublist (Q : Nat) (fs : List Feed) :
    ∀ a : List RSSFeed,
      List.Sublist ((cycle Q a fs).2.map Feed.sourceTitle)
        (fs.map Feed.sourceTitle) := by
  induction fs with
  | nil =>
    intro a
    have h2 : (cycle Q a ([] : List Feed)).2 = [] := rfl
    rw [h2]
  | cons f fs ih =>
    intro a
    by_cases hq : Q ≤ a.length
    · have h2 : (cycle Q a (f :: fs)).2 = f :: fs := by simp [cycle, hq]
      rw [h2]
    · cases hent : f.entries with
      | nil =>
        have h2 : (cycle Q a (f :: fs)).2 = (cycle Q a fs).2 := by
          simp [cycle, hq, hent]
        rw [h2, List.map_cons]
        exact (ih a).cons _
      | cons oe rest =>
        cases oe with
        | none =>
          have h2 : (cycle Q a (f :: fs)).2 = (cycle Q a fs).2 := by
            simp [cycle, hq, hent]
          rw [h2, List.map_cons]
          exact (ih a).cons _
        | some e =>
          have h2 : (cycle Q a (f :: fs)).2
              = ⟨rest, f.sourceTitle⟩ ::
                (cycle Q (a ++ [mkArticle f.sourceTitle e]) fs).2 := by
            simp [cycle, hq, hent]
          rw [h2, List.map_cons, List.map_cons]
          exact (ih _).cons₂ _

theorem cycle_filter_no_title (Q : Nat) (t : String) (fs : List Feed) :
    ∀ a : List RSSFeed, (∀ g ∈ fs, g.sourceTitle ≠ t) →
      (cycle Q a fs).1.filter (fun x => decide (x.source = some t))
        = a.filter (fun x => decide (x.source = some t)) := by
  induction fs with
  | nil => intro a _; rfl
  | cons f fs ih =>
    intro a hT
    by_cases hq : Q ≤ a.length
    · have h1 : (cycle Q a (f :: fs)).1 = a := by simp [cycle, hq]
      rw [h1]
    · cases hent : f.entries with
      | nil =>
        have h1 : (cycle Q a (f :: fs)).1 = (cycle Q a fs).1 := by
          simp [cycle, hq, hent]
        rw [h1]
        exact ih a (fun g hg => hT g (by simp [hg]))
      | cons oe rest =>
        cases oe with
        | none =>
          have h1 : (cycle Q a (f :: fs)).1 = (cycle Q a fs).1 := by
            simp [cycle, hq, hent]
          rw [h1]
          exact ih a (fun g hg => hT g (by simp [hg]))
        | some e =>
          have h1 : (cycle Q a (f :: fs)).1
              = (cycle Q (a ++ [mkArticle f.sourceTitle e]) fs).1 := by
            simp [cycle, hq, hent]
          rw [h1, ih _ (fun g hg => hT g (by simp [hg])), List.filter_append]
          have hx : (([mkArticle f.sourceTitle e] : List RSSFeed).filter
              (fun x => decide (x.source = some t))) = [] := by
            simp [mkArticle, hT f (List.mem_cons_self f fs)]
          rw [hx, List.append_nil]

theorem rrLoop_filter_no_title :
    ∀ (fuel Q : Nat) (t : String) (a : List RSSFeed) (fs : List Feed),
      (∀ g ∈ fs, g.sourceTitle ≠ t) →
      (rrLoop fuel Q a fs).filter (fun x => decide (x.source = some t))
        = a.filter (fun x => decide (x.source = some t)) := by
  intro fuel
  induction fuel with
  | zero => intro Q t a fs _; rfl
  | succ fuel ih =>
    intro Q t a fs hT
    by_cases hc : a.length < Q ∧ fs ≠ []
    · simp only [rrLoop, if_pos hc]
      have hT' : ∀ g ∈ (cycle Q a fs).2, g.sourceTitle ≠ t := by
        intro g hg
        have hmm : g.sourceTitle ∈ (cycle Q a fs).2.map Feed.sourceTitle :=
          List.mem_map_of_mem _ hg
        have hin := (cycle_titles_sublist Q fs a).subset hmm
        rcases List.mem_map.1 hin with ⟨g0, hg0, heq⟩
        rw [← heq]
        exact hT g0 hg0
      rw [ih Q t _ _ hT']
      exact cycle_filter_no_title Q t fs a hT
    · simp [rrLoop, hc]

end HF

namespace HF
open NewsIntel

/-- What one pass of the inner `for` loop does to a fixed feed `f` (feeds
carrying pairwise-distinct titles): either `f`'s head entry is consumed and
appended as the only article of `f`'s source in this pass, with the advanced
feed surviving; or `f` is left untouched (the pass broke off before reaching
it); or `f` was dropped (exhausted or raising) and no feed of its title
survives. -/
theorem cycle_step_for_feed (Q : Nat) (fs : List Feed) :
    ∀ (a : List RSSFeed) (f : Feed),
      (fs.map Feed.sourceTitle).Pairwise (· ≠ ·) → f ∈ fs →
      ((∃ e rest, f.entries = some e :: rest ∧
          (⟨rest, f.sourceTitle⟩ : Feed) ∈ (cycle Q a fs).2 ∧
          (cycle Q a fs).1.filter
              (fun x => decide (x.source = some f.sourceTitle))
            = a.filter (fun x => decide (x.source = some f.sourceTitle))
              ++ [mkArticle f.sourceTitle e]) ∨
       (f ∈ (cycle Q a fs).2 ∧
          (cycle Q a fs).1.filter
              (fun x => decide (x.source = some f.sourceTitle))
            = a.filter (fun x => decide (x.source = some f.sourceTitle))) ∨
       ((∀ g ∈ (cycle Q a fs).2, g.sourceTitle ≠ f.sourceTitle) ∧
          (cycle Q a fs).1.filter
              (fun x => decide (x.source = some f.sourceTitle))
            = a.filter
                (fun x => decide (x.source = some f.sourceTitle)))) := by
  induction fs with
  | nil => intro a f _ hf; simp at hf
  | cons f0 fs0 ih =>
    intro a f hpw hf
    rw [List.map_cons, List.pairwise_cons] at hpw
    by_cases hq : Q ≤ a.length
    · have h1 : (cycle Q a (f0 :: fs0)).1 = a := by simp [cycle, hq]
      have h2 : (cycle Q a (f0 :: fs0)).2 = f0 :: fs0 := by simp [cycle, hq]
      exact Or.inr (Or.inl ⟨by rw [h2]; exact hf, by rw [h1]⟩)
    · rcases List.mem_cons.1 hf with rfl | hmem
      · have hT : ∀ g ∈ fs0, g.sourceTitle ≠ f.sourceTitle := by
          intro g hg
          exact (hpw.1 g.sourceTitle (List.mem_map_of_mem _ hg)).symm
        cases hent : f.entries with
        | nil =>
          have h1 : (cycle Q a (f :: fs0)).1 = (cycle Q a fs0).1 := by
            simp [cycle, hq, hent]
          have h2 : (cycle Q a (f :: fs0)).2 = (cycle Q a fs0).2 := by
            simp [cycle, hq, hent]
          refine Or.inr (Or.inr ⟨?_, ?_⟩)
          · intro g hg
            rw [h2] at hg
            have hin := (cycle_titles_sublist Q fs0 a).subset
              (List.mem_map_of_mem _ hg)
            rcases List.mem_map.1 hin with ⟨g0, hg0, heq⟩
            rw [← heq]
            exact hT g0 hg0
          · rw [h1]
            exact cycle_filter_no_title Q _ fs0 a hT
        | cons oe rest =>
          cases oe with
          | none =>
            have h1 : (cycle Q a (f :: fs0)).1 = (cycle Q a fs0).1 := by
              simp [cycle, hq, hent]
            have h2 : (cycle Q a (f :: fs0)).2 = (cycle Q a fs0).2 := by
              simp [cycle, hq, hent]
            refine Or.inr (Or.inr ⟨?_, ?_⟩)
            · intro g hg
              rw [h2] at hg
              have hin := (cycle_titles_sublist Q fs0 a).subset
                (List.mem_map_of_mem _ hg)
              rcases List.mem_map.1 hin with ⟨g0, hg0, heq⟩
              rw [← heq]
              exact hT g0 hg0
            · rw [h1]
              exact cycle_filter_no_title Q _ fs0 a hT
          | some e =>
            have h1 : (cycle Q a (f :: fs0)).1
                = (cycle Q (a ++ [mkArticle f.sourceTitle e]) fs0).1 := by
              simp [cycle, hq, hent]
            have h2 : (cycle Q a (f :: fs0)).2
                = ⟨rest, f.sourceTitle⟩ ::
                  (cycle Q (a ++ [mkArticle f.sourceTitle e]) fs0).2 := by
              simp [cycle, hq, hent]
            refine Or.inl ⟨e, rest, rfl, ?_, ?_⟩
            · rw [h2]
              exact List.mem_cons_self _ _
            · rw [h1, cycle_filter_no_title Q _ fs0 _ hT, List.filter_append]
              congr 1
              simp [mkArticle]
      · have hne : f0.sourceTitle ≠ f.sourceTitle :=
          hpw.1 f.sourceTitle (List.mem_map_of_mem _ hmem)
        cases hent : f0.entries with
        | nil =>
          have h1 : (cycle Q a (f0 :: fs0)).1 = (cycle Q a fs0).1 := by
            simp [cycle, hq, hent]
          have h2 : (cycle Q a (f0 :: fs0)).2 = (cycle Q a fs0).2 := by
            simp [cycle, hq, hent]
          rw [h1, h2]
          exact ih a f hpw.2 hmem
        | cons oe rest =>
          cases oe with
          | none =>
            have h1 : (cycle Q a (f0 :: fs0)).1 = (cycle Q a fs0).1 := by
              simp [cycle, hq, hent]
            have h2 : (cycle Q a (f0 :: fs0)).2 = (cycle Q a fs0).2 := by
              simp [cycle, hq, hent]
            rw [h1, h2]
            exact ih a f hpw.2 hmem
          | some e0 =>
            have h1 : (cycle Q a (f0 :: fs0)).1
                = (cycle Q (a ++ [mkArticle f0.sourceTitle e0]) fs0).1 := by
              simp [cycle, hq, hent]
            have h2 : (cycle Q a (f0 :: fs0)).2
                = ⟨rest, f0.sourceTitle⟩ ::
                  (cycle Q (a ++ [mkArticle f0.sourceTitle e0]) fs0).2 := by
              simp [cycle, hq, hent]
            have hacc : (a ++ [mkArticle f0.sourceTitle e0]).filter
                  (fun x => decide (x.source = some f.sourceTitle))
                = a.filter
                    (fun x => decide (x.source = some f.sourceTitle)) := by
              rw [List.filter_append]
              have hx : (([mkArticle f0.sourceTitle e0] : List RSSFeed).filter
                  (fun x => decide (x.source = some f.sourceTitle))) = [] := by
                simp [mkArticle, hne]
              rw [hx, List.append_nil]
            rw [h1, h2]
            rcases ih (a ++ [mkArticle f0.sourceTitle e0]) f hpw.2 hmem with
              ⟨e, rest', hent', hmem', hfil⟩ | ⟨hmem', hfil⟩ | ⟨hT', hfil⟩
            · exact Or.inl ⟨e, rest', hent',
                List.mem_cons_of_mem _ hmem', by rw [hfil, hacc]⟩
            · exact Or.inr (Or.inl ⟨List.mem_cons_of_mem _ hmem',
                by rw [hfil, hacc]⟩)
            · refine Or.inr (Or.inr ⟨?_, by rw [hfil, hacc]⟩)
              intro g hg
              rcases List.mem_cons.1 hg with rfl | hg
              · exact hne
              · exact hT' g hg

end HF

namespace HF
open NewsIntel

/-- Feed-native order within each source, for every run (exhaustion and
raising entries included): the articles the round-robin loop attributes to a
given source form a prefix of that source's realized article list. -/
theorem rrLoop_native_order :
    ∀ (fuel Q : Nat) (a : List RSSFeed) (fs : List Feed) (f : Feed),
      (fs.map Feed.sourceTitle).Pairwise (· ≠ ·) → f ∈ fs →
      ∃ n, (rrLoop fuel Q a fs).filter
            (fun x => decide (x.source = some f.sourceTitle))
        = a.filter (fun x => decide (x.source = some f.sourceTitle))
          ++ (feedArticles f).take n := by
  intro fuel
  induction fuel with
  | zero => intro Q a fs f _ _; exact ⟨0, by simp [rrLoop]⟩
  | succ fuel ih =>
    intro Q a fs f hpw hf
    by_cases hc : a.length < Q ∧ fs ≠ []
    · simp only [rrLoop, if_pos hc]
      have hpw' : ((cycle Q a fs).2.map Feed.sourceTitle).Pairwise (· ≠ ·) :=
        List.Pairwise.sublist (cycle_titles_sublist Q fs a) hpw
      rcases cycle_step_for_feed Q fs a f hpw hf with
        ⟨e, rest, hent, hmem', hfil⟩ | ⟨hmem', hfil⟩ | ⟨hT', hfil⟩
      · obtain ⟨n, hn⟩ := ih Q (cycle Q a fs).1 (cycle Q a fs).2
          ⟨rest, f.sourceTitle⟩ hpw' hmem'
        refine ⟨n + 1, ?_⟩
        rw [hn, hfil, List.append_assoc]
        congr 1
        have hfa : feedArticles f
            = mkArticle f.sourceTitle e
              :: feedArticles ⟨rest, f.sourceTitle⟩ := by
          simp [feedArticles, hent]
        rw [hfa, List.take_succ_cons]
        rfl
      · obtain ⟨n, hn⟩ := ih Q (cycle Q a fs).1 (cycle Q a fs).2 f hpw' hmem'
        exact ⟨n, by rw [hn, hfil]⟩
      · refine ⟨0, ?_⟩
        rw [rrLoop_filter_no_title fuel Q f.sourceTitle
          (cycle Q a fs).1 (cycle Q a fs).2 hT', hfil]
        simp
    · exact ⟨0, by simp [rrLoop, hc]⟩

end HF

namespace HF
open NewsIntel

/-- **C5.** The multi-source collector visits sources cyclically in the order
supplied in configuration and preserves feed-native order within each
source: (i) universally, while no live source exhausts (each of the `N` live
sources holds at least `⌈Q/N⌉` well-formed entries), the output is exactly
the round-by-round interleaving that takes, in configuration order, each
source's next entry, truncated at the quota; (ii) universally, for every run
— exhaustion and raising entries included — the articles attributed to any
source form a prefix of that source's entries in feed-native order;
(iii) concretely, for 3 sources holding 5, 2 and 10 entries and quota 6, the
output interleaves the sources as 1,2,3,1,2,3. -/
theorem C5_round_robin_order (results : List FetchResult) (Q : Nat)
    (hmulti : 1 < (parseFeeds results).length)
    (hsome : allSomeFeeds (parseFeeds results))
    (hround : ∀ f ∈ parseFeeds results,
        ceilDivNat Q (parseFeeds results).length ≤ f.entries.length) :
    fetch_rss_feeds "all" results Q
        = .ok (rrInterleaveSpec (parseFeeds results) Q) ∧
    (∀ (fuel Q' : Nat) (a : List RSSFeed) (fs : List Feed) (f : Feed),
        (fs.map Feed.sourceTitle).Pairwise (· ≠ ·) → f ∈ fs →
        ∃ n, (rrLoop fuel Q' a fs).filter
              (fun x => decide (x.source = some f.sourceTitle))
          = a.filter (fun x => decide (x.source = some f.sourceTitle))
            ++ (feedArticles f).take n) ∧
    fetch_rss_feeds "all"
      [FetchResult.parsed "s1"
         [some ⟨"a1", "l1", none, none⟩, some ⟨"a2", "l2", none, none⟩,
          some ⟨"a3", "l3", none, none⟩, some ⟨"a4", "l4", none, none⟩,
          some ⟨"a5", "l5", none, none⟩],
       FetchResult.parsed "s2"
         [some ⟨"b1", "m1", none, none⟩, some ⟨"b2", "m2", none, none⟩],
       FetchResult.parsed "s3"
         [some ⟨"c1", "n1", none, none⟩, some ⟨"c2", "n2", none, none⟩,
          some ⟨"c3", "n3", none, none⟩, some ⟨"c4", "n4", none, none⟩,
          some ⟨"c5", "n5", none, none⟩, some ⟨"c6", "n6", none, none⟩,
          some ⟨"c7", "n7", none, none⟩, some ⟨"c8", "n8", none, none⟩,
          some ⟨"c9", "n9", none, none⟩, some ⟨"c10", "n10", none, none⟩]] 6
      = .ok
        [⟨"a1", "l1", some "s1", none, none⟩,
         ⟨"b1", "m1", some "s2", none, none⟩,
         ⟨"c1", "n1", some "s3", none, none⟩,
         ⟨"a2", "l2", some "s1", none, none⟩,
         ⟨"b2", "m2", some "s2", none, none⟩,
         ⟨"c2", "n2", some "s3", none, none⟩] := by
  refine ⟨?_, ?_, rfl⟩
  · have hN : 0 < (parseFeeds results).length := by omega
    have hq0 : Q ≤ ([] : List RSSFeed).length
        + ceilDivNat Q (parseFeeds results).length
          * (parseFeeds results).length := by
      have h1 := le_mul_ceilDivNat Q (parseFeeds results).length hN
      rw [Nat.mul_comm] at h1
      simpa using h1
    have hmain := rrLoop_interleave
      (ceilDivNat Q (parseFeeds results).length)
      (rrMeasure (parseFeeds results) + 1) Q [] (parseFeeds results)
      hsome hround hN hq0 (by simp) (by omega)
    show collectArticles "all" (parseFeeds results) Q = _
    unfold collectArticles
    rw [if_pos (⟨hmulti, rfl⟩ : 1 < (parseFeeds results).length
      ∧ ("all" : String) = "all")]
    rw [hmain]
    simp [rrInterleaveSpec]
  · intro fuel Q' a fs f hpw hf
    exact rrLoop_native_order fuel Q' a fs f hpw hf

end HF

/-- Witness: a concrete two-source run (two entries per source, quota 3)
satisfies the hypotheses of `HF.C5_round_robin_order`, and the collector's
output equals the predicted interleaving `a1, b1, a2`. -/
theorem C5_round_robin_order_witness :
    1 < (NewsIntel.parseFeeds
      [NewsIntel.FetchResult.parsed "s1"
         [some ⟨"a1", "l1", none, none⟩, some ⟨"a2", "l2", none, none⟩],
       NewsIntel.FetchResult.parsed "s2"
         [some ⟨"b1", "m1", none, none⟩,
          some ⟨"b2", "m2", none, none⟩]]).length ∧
    NewsIntel.allSomeFeeds (NewsIntel.parseFeeds
      [NewsIntel.FetchResult.parsed "s1"
         [some ⟨"a1", "l1", none, none⟩, some ⟨"a2", "l2", none, none⟩],
       NewsIntel.FetchResult.parsed "s2"
         [some ⟨"b1", "m1", none, none⟩, some ⟨"b2", "m2", none, none⟩]]) ∧
    (∀ f ∈ NewsIntel.parseFeeds
      [NewsIntel.FetchResult.parsed "s1"
         [some ⟨"a1", "l1", none, none⟩, some ⟨"a2", "l2", none, none⟩],
       NewsIntel.FetchResult.parsed "s2"
         [some ⟨"b1", "m1", none, none⟩, some ⟨"b2", "m2", none, none⟩]],
      NewsIntel.ceilDivNat 3 (NewsIntel.parseFeeds
        [NewsIntel.FetchResult.parsed "s1"
           [some ⟨"a1", "l1", none, none⟩, some ⟨"a2", "l2", none, none⟩],
         NewsIntel.FetchResult.parsed "s2"
           [some ⟨"b1", "m1", none, none⟩,
            some ⟨"b2", "m2", none, none⟩]]).length
        ≤ f.entries.length) ∧
    HF.fetch_rss_feeds "all"
      [NewsIntel.FetchResult.parsed "s1"
         [some ⟨"a1", "l1", none, none⟩, some ⟨"a2", "l2", none, none⟩],
       NewsIntel.FetchResult.parsed "s2"
         [some ⟨"b1", "m1", none, none⟩, some ⟨"b2", "m2", none, none⟩]] 3
      = .ok (HF.rrInterleaveSpec (NewsIntel.parseFeeds
          [NewsIntel.FetchResult.parsed "s1"
             [some ⟨"a1", "l1", none, none⟩, some ⟨"a2", "l2", none, none⟩],
           NewsIntel.FetchResult.parsed "s2"
             [some ⟨"b1", "m1", none, none⟩,
              some ⟨"b2", "m2", none, none⟩]]) 3) :=
  ⟨by decide, by decide, by decide,
    (HF.C5_round_robin_order
      [NewsIntel.FetchResult.parsed "s1"
         [some ⟨"a1", "l1", none, none⟩, some ⟨"a2", "l2", none, none⟩],
       NewsIntel.FetchResult.parsed "s2"
         [some ⟨"b1", "m1", none, none⟩, some ⟨"b2", "m2", none, none⟩]] 3
      (by decide) (by decide) (by decide)).1⟩
